import Mathlib

/-!
Verification of the heycochrane acquisition and date-backfill scripts.

The development shallowly embeds the pure logic of
`scripts/update_cochrane.py` and `scripts/add_dates.py`:

* text is `List Char`; the regular-expression scans of the scripts
  (`CD\d+`, the brace-delimited JSON span, the DOI patterns, the
  `datePublished` scan) are embedded as explicit scanning functions;
* external effects (HTTP fetches, the language-model calls, the stdlib
  JSON/YAML (de)serialisers) are oracle parameters gathered in
  structures, so every theorem quantifies over their behaviour;
* the orchestration in each script's `main` is embedded as a pure
  function from the discovery inputs and the store's text to a run
  result (final store text, exit code, emitted machine-readable output).
-/

set_option maxHeartbeats 1000000

namespace Cochrane

/-! Basic helpers over `List Char`. -/

def strL (s : String) : List Char := s.toList

def lbrace : Char := Char.ofNat 123

def rbrace : Char := Char.ofNat 125

/-- Boolean test that the first list is a leading segment of the second. -/
def leadsWith : List Char → List Char → Bool
  | [], _ => true
  | _ :: _, [] => false
  | a :: as, b :: bs => a = b && leadsWith as bs

/-- Boolean substring test (Python `in` on strings). -/
def occursIn (pat : List Char) : List Char → Bool
  | [] => leadsWith pat []
  | c :: t => leadsWith pat (c :: t) || occursIn pat t

theorem dropWhile_len_le {α : Type} (p : α → Bool) (l : List α) :
    (l.dropWhile p).length ≤ l.length := by
  induction l with
  | nil => simp
  | cons a t ih =>
    by_cases h : p a = true
    · simp only [List.dropWhile_cons, h, if_pos, List.length_cons]
      omega
    · simp [List.dropWhile_cons, h]

theorem takeWhile_all {α : Type} {p : α → Bool} {l : List α}
    (h : ∀ x ∈ l, p x = true) : l.takeWhile p = l := by
  induction l with
  | nil => simp
  | cons a t ih =>
    have ha := h a (by simp)
    simp only [List.takeWhile_cons, ha, if_pos]
    exact congrArg _ (ih fun x hx => h x (by simp [hx]))

theorem dropWhile_all {α : Type} {p : α → Bool} {l : List α}
    (h : ∀ x ∈ l, p x = true) : l.dropWhile p = [] := by
  induction l with
  | nil => simp
  | cons a t ih =>
    have ha := h a (by simp)
    simp only [List.dropWhile_cons, ha, if_pos]
    exact ih fun x hx => h x (by simp [hx])

theorem takeWhile_append_stop {α : Type} {p : α → Bool} {x : α}
    (hx : p x = false) (l r : List α) :
    ((l ++ x :: r).takeWhile p) = l.takeWhile p := by
  induction l with
  | nil => simp [List.takeWhile_cons, hx]
  | cons a t ih =>
    by_cases h : p a = true <;> simp [List.takeWhile_cons, h, ih]

theorem dropWhile_append_stop {α : Type} {p : α → Bool} {x : α}
    (hx : p x = false) (l r : List α) :
    ((l ++ x :: r).dropWhile p) = l.dropWhile p ++ x :: r := by
  induction l with
  | nil => simp [List.dropWhile_cons, hx]
  | cons a t ih =>
    by_cases h : p a = true <;> simp [List.dropWhile_cons, h, ih]

theorem dropWhile_head_false {α : Type} {p : α → Bool} {l : List α} {c : α}
    {t : List α} (h : l.dropWhile p = c :: t) : p c = false := by
  induction l with
  | nil => simp at h
  | cons a tl ih =>
    by_cases ha : p a = true
    · exact ih (by simpa [List.dropWhile_cons, ha] using h)
    · simp only [List.dropWhile_cons, ha, if_neg, Bool.false_eq_true,
        not_false_iff] at h
      cases h
      simpa using ha

/-! The `CD\d+` scan used by `get_existing_cd_numbers` (a `findall`) and the
candidate extraction in `fetch_rss_reviews` / `scrape_news_page` /
`extract_cd_number` (a `search`). `findAllCD` walks the text; at an
occurrence of `C`, `D` followed by at least one digit it emits the match
(`CD` plus the maximal digit run) and resumes after the digits, exactly as
`re.findall` resumes after a match; otherwise it advances one character. -/

def findAllCD : List Char → List (List Char)
  | [] => []
  | c :: rest =>
    if c = 'C' then
      match rest with
      | [] => []
      | d :: rest2 =>
        if d = 'D' then
          if rest2.takeWhile Char.isDigit = [] then findAllCD (d :: rest2)
          else ('C' :: 'D' :: rest2.takeWhile Char.isDigit) ::
            findAllCD (rest2.dropWhile Char.isDigit)
        else findAllCD (d :: rest2)
    else findAllCD rest
termination_by l => l.length
decreasing_by
  all_goals simp only [List.length_cons]
  all_goals try omega
  all_goals exact Nat.lt_of_le_of_lt (dropWhile_len_le _ _) (by omega)

/-- First `CD\d+` match of a text (`re.search`). -/
def searchCD (l : List Char) : Option (List Char) := (findAllCD l).head?

theorem findAllCD_nil : findAllCD [] = [] := by
  rw [findAllCD.eq_def]

theorem findAllCD_cons_notC {c : Char} (rest : List Char) (h : ¬ c = 'C') :
    findAllCD (c :: rest) = findAllCD rest := by
  rw [findAllCD.eq_def]
  simp [h]

theorem findAllCD_C_nil : findAllCD ['C'] = [] := by
  rw [findAllCD.eq_def]
  simp

theorem findAllCD_C_notD {d : Char} (rest2 : List Char) (h : ¬ d = 'D') :
    findAllCD ('C' :: d :: rest2) = findAllCD (d :: rest2) := by
  rw [findAllCD.eq_def]
  simp [h]

theorem findAllCD_CD_nodigit (rest2 : List Char)
    (h : rest2.takeWhile Char.isDigit = []) :
    findAllCD ('C' :: 'D' :: rest2) = findAllCD ('D' :: rest2) := by
  rw [findAllCD.eq_def]
  simp [h]

theorem findAllCD_CD_digit (rest2 : List Char)
    (h : ¬ rest2.takeWhile Char.isDigit = []) :
    findAllCD ('C' :: 'D' :: rest2) =
      ('C' :: 'D' :: rest2.takeWhile Char.isDigit) ::
        findAllCD (rest2.dropWhile Char.isDigit) := by
  rw [findAllCD.eq_def]
  simp [h]

/-- Shape of a CD identifier: the literal `CD` followed by a nonempty run of
digits. -/
def cdShape (m : List Char) : Prop :=
  ∃ ds, m = 'C' :: 'D' :: ds ∧ ds ≠ [] ∧ ∀ c ∈ ds, c.isDigit = true

theorem cd_mem_base {ds : List Char} (hne : ds ≠ [])
    (hdig : ∀ c ∈ ds, c.isDigit = true) {c : Char} (hc : c.isDigit = false)
    (b : List Char) :
    ('C' :: 'D' :: ds) ∈ findAllCD ('C' :: 'D' :: (ds ++ c :: b)) := by
  have htw : (ds ++ c :: b).takeWhile Char.isDigit = ds := by
    rw [takeWhile_append_stop hc, takeWhile_all hdig]
  rw [findAllCD_CD_digit _ (by rw [htw]; exact hne), htw]
  exact List.mem_cons_self _ _

/-- If the text contains `CD` + digits followed by a non-digit character,
the `CD\d+` findall scan reports exactly that match, wherever it sits. -/
theorem cd_mem_of_decomp {ds : List Char} (hne : ds ≠ [])
    (hdig : ∀ c ∈ ds, c.isDigit = true) :
    ∀ (n : Nat) (a : List Char), a.length ≤ n → ∀ (b : List Char) (c : Char),
      c.isDigit = false →
      ('C' :: 'D' :: ds) ∈ findAllCD (a ++ 'C' :: 'D' :: ds ++ c :: b) := by
  intro n
  induction n with
  | zero =>
    intro a ha b c hc
    have : a = [] := List.length_eq_zero.mp (Nat.le_zero.mp ha)
    subst this
    simpa using cd_mem_base hne hdig hc b
  | succ n ih =>
    intro a ha b c hc
    match a with
    | [] => simpa using cd_mem_base hne hdig hc b
    | x :: a' =>
      simp only [List.length_cons, Nat.succ_le_succ_iff] at ha
      by_cases hx : x = 'C'
      · subst hx
        match a' with
        | [] =>
          have : ([( 'C' : Char)] ++ 'C' :: 'D' :: ds ++ c :: b) =
              'C' :: 'C' :: ('D' :: (ds ++ c :: b)) := by simp
          rw [this, findAllCD_C_notD _ (by decide)]
          have h2 : ('C' : Char) :: 'D' :: (ds ++ c :: b) =
              [] ++ 'C' :: 'D' :: ds ++ c :: b := by simp
          rw [h2]
          exact ih [] (by simp) b c hc
        | y :: a'' =>
          by_cases hy : y = 'D'
          · subst hy
            have hrw : (('C' :: 'D' :: a'') ++ 'C' :: 'D' :: ds ++ c :: b) =
                'C' :: 'D' :: (a'' ++ 'C' :: 'D' :: ds ++ c :: b) := by simp
            rw [hrw]
            set L := a'' ++ 'C' :: 'D' :: ds ++ c :: b with hL
            by_cases htw : L.takeWhile Char.isDigit = []
            · rw [findAllCD_CD_nodigit _ htw]
              have h2 : ('D' : Char) :: L = ('D' :: a'') ++ 'C' :: 'D' :: ds ++ c :: b := by
                simp [hL]
              rw [h2]
              exact ih ('D' :: a'') (by simpa using ha) b c hc
            · rw [findAllCD_CD_digit _ htw]
              apply List.mem_cons_of_mem
              have hCd : ('C' : Char).isDigit = false := by decide
              have hdw : L.dropWhile Char.isDigit =
                  (a''.dropWhile Char.isDigit) ++ 'C' :: 'D' :: ds ++ c :: b := by
                have h0 : L = a'' ++ 'C' :: ('D' :: (ds ++ c :: b)) := by
                  simp [hL]
                rw [h0, dropWhile_append_stop hCd a'' ('D' :: (ds ++ c :: b))]
                simp
              rw [hdw]
              have ha2 : a''.length + 1 ≤ n := by simpa using ha
              have hlen : (a''.dropWhile Char.isDigit).length ≤ n := by
                have := dropWhile_len_le Char.isDigit a''
                omega
              exact ih _ hlen b c hc
          · have hrw : (('C' :: y :: a'') ++ 'C' :: 'D' :: ds ++ c :: b) =
                'C' :: y :: (a'' ++ 'C' :: 'D' :: ds ++ c :: b) := by simp
            rw [hrw, findAllCD_C_notD _ hy]
            have h2 : y :: (a'' ++ 'C' :: 'D' :: ds ++ c :: b) =
                (y :: a'') ++ 'C' :: 'D' :: ds ++ c :: b := by simp
            rw [h2]
            exact ih (y :: a'') (by simpa using ha) b c hc
      · have hrw : ((x :: a') ++ 'C' :: 'D' :: ds ++ c :: b) =
            x :: (a' ++ 'C' :: 'D' :: ds ++ c :: b) := by simp
        rw [hrw, findAllCD_cons_notC _ hx]
        exact ih a' ha b c hc

theorem mem_takeWhile_pred {α : Type} {p : α → Bool} {l : List α} {x : α}
    (h : x ∈ l.takeWhile p) : p x = true := List.mem_takeWhile_imp h

/-- Every match reported by the `CD\d+` findall scan is a `CD` + digits
token occurring in the text, followed there by a non-digit or the end of
the text. -/
theorem findAllCD_mem_decomp :
    ∀ (n : Nat) (l : List Char), l.length ≤ n → ∀ m ∈ findAllCD l,
      ∃ ds a b, m = 'C' :: 'D' :: ds ∧ ds ≠ [] ∧
        (∀ c ∈ ds, c.isDigit = true) ∧ l = a ++ m ++ b ∧
        (b = [] ∨ ∃ c bt, b = c :: bt ∧ c.isDigit = false) := by
  intro n
  induction n with
  | zero =>
    intro l hl m hm
    have : l = [] := List.length_eq_zero.mp (Nat.le_zero.mp hl)
    subst this
    rw [findAllCD_nil] at hm
    simp at hm
  | succ n ih =>
    intro l hl m hm
    match l with
    | [] =>
      rw [findAllCD_nil] at hm
      simp at hm
    | x :: rest =>
      simp only [List.length_cons, Nat.succ_le_succ_iff] at hl
      by_cases hx : x = 'C'
      · subst hx
        match rest with
        | [] =>
          rw [findAllCD_C_nil] at hm
          simp at hm
        | y :: r2 =>
          by_cases hy : y = 'D'
          · subst hy
            by_cases htw : r2.takeWhile Char.isDigit = []
            · rw [findAllCD_CD_nodigit _ htw] at hm
              obtain ⟨ds, a, b, h1, h2, h3, h4, h5⟩ :=
                ih ('D' :: r2) (by simpa using hl) m hm
              exact ⟨ds, 'C' :: a, b, h1, h2, h3, by simp [← h4], h5⟩
            · rw [findAllCD_CD_digit _ htw] at hm
              rcases List.mem_cons.mp hm with hm | hm
              · refine ⟨r2.takeWhile Char.isDigit, [],
                  r2.dropWhile Char.isDigit, hm, htw,
                  fun c hc => mem_takeWhile_pred hc, ?_, ?_⟩
                · rw [hm]
                  simp [List.takeWhile_append_dropWhile]
                · match hdw : r2.dropWhile Char.isDigit with
                  | [] => exact Or.inl rfl
                  | c :: bt =>
                    exact Or.inr ⟨c, bt, rfl, dropWhile_head_false hdw⟩
              · have hl2 : r2.length + 1 ≤ n := by simpa using hl
                have hlen : (r2.dropWhile Char.isDigit).length ≤ n := by
                  have := dropWhile_len_le Char.isDigit r2
                  omega
                obtain ⟨ds, a, b, h1, h2, h3, h4, h5⟩ := ih _ hlen m hm
                refine ⟨ds, 'C' :: 'D' :: r2.takeWhile Char.isDigit ++ a, b,
                  h1, h2, h3, ?_, h5⟩
                have : r2 = r2.takeWhile Char.isDigit ++ (a ++ m ++ b) := by
                  rw [← h4, List.takeWhile_append_dropWhile]
                calc ('C' : Char) :: 'D' :: r2
                    = 'C' :: 'D' :: (r2.takeWhile Char.isDigit ++ (a ++ m ++ b)) := by
                      rw [← this]
                  _ = ('C' :: 'D' :: r2.takeWhile Char.isDigit ++ a) ++ m ++ b := by
                      simp
          · rw [findAllCD_C_notD _ hy] at hm
            obtain ⟨ds, a, b, h1, h2, h3, h4, h5⟩ :=
              ih (y :: r2) (by simpa using hl) m hm
            exact ⟨ds, 'C' :: a, b, h1, h2, h3, by simp [← h4], h5⟩
      · rw [findAllCD_cons_notC _ hx] at hm
        obtain ⟨ds, a, b, h1, h2, h3, h4, h5⟩ := ih rest hl m hm
        exact ⟨ds, x :: a, b, h1, h2, h3, by simp [← h4], h5⟩

/-- Appending text that begins with a non-digit preserves every reported
`CD\d+` match of the original text. -/
theorem findAllCD_mem_append {m l : List Char} {c : Char} (z : List Char)
    (hc : c.isDigit = false) (hm : m ∈ findAllCD l) :
    m ∈ findAllCD (l ++ c :: z) := by
  obtain ⟨ds, a, b, h1, h2, h3, h4, h5⟩ :=
    findAllCD_mem_decomp l.length l (le_refl _) m hm
  subst h1
  rcases h5 with rfl | ⟨cb, bt, rfl, hcb⟩
  · have : (a ++ ('C' :: 'D' :: ds) ++ []) ++ c :: z =
        a ++ 'C' :: 'D' :: ds ++ c :: z := by simp
    rw [h4, this]
    exact cd_mem_of_decomp h2 h3 a.length a (le_refl _) z c hc
  · have : (a ++ ('C' :: 'D' :: ds) ++ cb :: bt) ++ c :: z =
        a ++ 'C' :: 'D' :: ds ++ cb :: (bt ++ c :: z) := by simp
    rw [h4, this]
    exact cd_mem_of_decomp h2 h3 a.length a (le_refl _) _ cb hcb

/-- Decomposition of a successful `re.search(r'CD\d+', url)`. -/
theorem searchCD_decomp {url m : List Char} (h : searchCD url = some m) :
    cdShape m ∧ ∃ a b, url = a ++ m ++ b ∧
      (b = [] ∨ ∃ c bt, b = c :: bt ∧ c.isDigit = false) := by
  have hm : m ∈ findAllCD url := by
    apply List.mem_of_mem_head?
    rw [searchCD] at h
    simp [h]
  obtain ⟨ds, a, b, h1, h2, h3, h4, h5⟩ :=
    findAllCD_mem_decomp url.length url (le_refl _) m hm
  exact ⟨⟨ds, h1, h2, h3⟩, a, b, h4, h5⟩

/-! Discovery (`fetch_rss_reviews`, `scrape_news_page` and the choice
between them in `main`). A feed entry carries its link and title; a
scraped anchor carries its href and text. -/

structure Entry where
  link : List Char
  title : List Char
deriving DecidableEq

structure Link where
  href : List Char
  text : List Char
deriving DecidableEq

structure Candidate where
  cd_number : List Char
  url : List Char
  title : List Char
deriving DecidableEq

/-- `fetch_rss_reviews`: keep each feed entry whose link contains a CD
number; the candidate records the first CD match, the link and title. -/
def fetch_rss_reviews (entries : List Entry) : List Candidate :=
  entries.filterMap fun e =>
    (searchCD e.link).map fun cd => ⟨cd, e.link, e.title⟩

def cochraneBase : List Char := strL "https://www.cochrane.org"

/-- Relative hrefs are prefixed with the fixed base URL. -/
def normalizeHref (href : List Char) : List Char :=
  match href with
  | '/' :: _ => cochraneBase ++ href
  | _ => href

/-- Deduplication by CD number, first occurrence wins (the `seen` set
loop of `scrape_news_page`). -/
def dedupByCd : List Candidate → List (List Char) → List Candidate
  | [], _ => []
  | r :: rest, seen =>
    if decide (r.cd_number ∈ seen) then dedupByCd rest seen
    else r :: dedupByCd rest (r.cd_number :: seen)

/-- `scrape_news_page`: anchors whose href contains a CD number become
candidates (href normalized), deduplicated by CD number. -/
def scrape_news_page (links : List Link) : List Candidate :=
  dedupByCd
    (links.filterMap fun ln =>
      (searchCD ln.href).map fun cd => ⟨cd, normalizeHref ln.href, ln.text⟩)
    []

/-- Discovery in `main`: the RSS feed first, the news-page scrape only
when the feed yields nothing. -/
def discover (entries : List Entry) (links : List Link) : List Candidate :=
  if (fetch_rss_reviews entries).isEmpty then scrape_news_page links
  else fetch_rss_reviews entries

/-! The transformer (`summarize_review` / `enrich_summary`). The model
response is free text; the scripts take the first `\{[^{}]*\}` span and
feed it to `json.loads`. The loader and the model calls are oracles. -/

/-- Parsed JSON object of the summarize response, as the script uses it:
the truthiness of its `skip` entry and the three summary fields. -/
structure ModelObject where
  skip : Bool
  question : List Char
  answer : List Char
  notes : List Char
deriving DecidableEq

/-- Parsed JSON object of the enrichment response: `interest` and `tags`
entries, each possibly absent (`.get` defaults apply). -/
structure EnrichObject where
  interest : Option Int
  tags : Option (List (List Char))
deriving DecidableEq

/-- Match of `\{[^{}]*\}` anchored at the current position: an opening
brace, a run of non-brace characters, a closing brace. -/
def braceSpanAt : List Char → Option (List Char)
  | [] => none
  | c :: rest =>
    if c = lbrace ∧
        (rest.dropWhile (fun d => !(d = lbrace || d = rbrace))).head? =
          some rbrace then
      some ((lbrace :: rest.takeWhile (fun d => !(d = lbrace || d = rbrace)))
        ++ [rbrace])
    else none

/-- `re.search(r'\{[^{}]*\}', response)`: first position whose anchored
match succeeds. -/
def extractBrace : List Char → Option (List Char)
  | [] => none
  | c :: rest =>
    match braceSpanAt (c :: rest) with
    | some m => some m
    | none => extractBrace rest

/-- The external collaborators of the acquisition flow: page fetching
plus extraction (network + BeautifulSoup), the two model calls, and
`json.loads` on each extracted span. -/
structure Ext where
  fetchPLS : List Char → List Char → Option (List Char)
  claudeSummarize : List Char → Option (List Char)
  claudeEnrich : List Char → List Char → List Char → Option (List Char)
  loadsSummary : List Char → Option ModelObject
  loadsEnrich : List Char → Option EnrichObject

/-- `summarize_review`: call the model, take the first brace span, load
it; a truthy `skip` entry or any failure yields nothing. -/
def summarize_review (o : Ext) (pls : List Char) : Option ModelObject :=
  match o.claudeSummarize pls with
  | none => none
  | some resp =>
    match extractBrace resp with
    | none => none
    | some span =>
      match o.loadsSummary span with
      | none => none
      | some obj => if obj.skip then none else some obj

/-! Decimal rendering (`str` / the `:02d` format of the scripts). -/

def natStr (n : Nat) : List Char :=
  if h : n < 10 then [Char.ofNat (48 + n)]
  else natStr (n / 10) ++ [Char.ofNat (48 + n % 10)]
termination_by n
decreasing_by exact Nat.div_lt_self (by omega) (by omega)

def intStr (i : Int) : List Char :=
  if i < 0 then '-' :: natStr (-i).toNat else natStr i.toNat

/-- Python `f"{n:02d}"`: left-pad the decimal rendering with `0` to width
two. -/
def pad2 (i : Int) : List Char :=
  if (intStr i).length < 2 then '0' :: intStr i else intStr i

/-- A fully processed summary record, as appended to the store. -/
structure Summary where
  question : List Char
  answer : List Char
  url : List Char
  notes : List Char
  interest : Int
  tags : List (List Char)
deriving DecidableEq

/-- `enrich_summary`: second model call on the summary fields; merges
`interest` (default 5) and `tags` (default empty) into the record. -/
def enrich_summary (o : Ext) (q a notes url : List Char) : Option Summary :=
  match o.claudeEnrich q a notes with
  | none => none
  | some resp =>
    match extractBrace resp with
    | none => none
    | some span =>
      match o.loadsEnrich span with
      | none => none
      | some e => some ⟨q, a, url, notes, e.interest.getD 5, e.tags.getD []⟩

/-- The stdlib serialisers used by `append_to_summaries`
(`json.dumps` on a string and on the tag list), taken as parameters. -/
structure Ser where
  dumpsStr : List Char → List Char
  dumpsTags : List (List Char) → List Char

/-- One formatted YAML entry (the f-string template of
`append_to_summaries`, after its `.strip()`). -/
def entryText (ser : Ser) (s : Summary) : List Char :=
  strL "- question: " ++ ser.dumpsStr s.question ++
  strL "\n  answer: " ++ ser.dumpsStr s.answer ++
  strL "\n  url: " ++ s.url ++
  strL "\n  notes: |\n    " ++ s.notes ++
  strL "\n  interest: " ++ intStr s.interest ++
  strL "\n  tags: " ++ ser.dumpsTags s.tags

/-- Python `sep.join(parts)`. -/
def joinSep (sep : List Char) : List (List Char) → List Char
  | [] => []
  | [x] => x
  | x :: y :: rest => x ++ sep ++ joinSep sep (y :: rest)

/-- `append_to_summaries`: write the marker comment, then the formatted
entries joined by blank lines, then a final newline, after the existing
content. -/
def appendToSummaries (ser : Ser) (content : List Char)
    (summaries : List Summary) : List Char :=
  if summaries.isEmpty then content
  else content ++ strL "\n\n# New reviews added by automation\n" ++
    joinSep (strL "\n\n") (summaries.map (entryText ser)) ++ ['\n']

/-- The per-candidate body of the processing loop in `main`: fetch the
plain-language summary, summarize, attach the url, enrich. A falsy
result at any stage drops the candidate. -/
def processOne (o : Ext) (r : Candidate) : Option Summary :=
  match o.fetchPLS r.url r.cd_number with
  | none => none
  | some pls =>
    if pls.isEmpty then none
    else
      match summarize_review o pls with
      | none => none
      | some obj => enrich_summary o obj.question obj.answer obj.notes r.url

/-- The candidates surviving the existing-identifier filter of `main`. -/
def newCandidates (entries : List Entry) (links : List Link)
    (content : List Char) : List Candidate :=
  (discover entries links).filter
    fun r => decide (r.cd_number ∉ findAllCD content)

/-- The summaries produced by one run: the filtered candidates are capped
at `maxReviews` and processed one by one. -/
def processedSummaries (o : Ext) (entries : List Entry) (links : List Link)
    (content : List Char) (maxReviews : Nat) : List Summary :=
  ((newCandidates entries links content).take maxReviews).filterMap
    (processOne o)

structure Args where
  dryRun : Bool
  maxReviews : Nat
deriving DecidableEq

/-- Observable outcome of a `main` run: final store text, process exit
code, and the machine-readable success output (processed count and new
URLs), or `none` when the run ends without emitting it. -/
structure RunResult where
  content : List Char
  exitCode : Nat
  output : Option (Nat × List (List Char))
deriving DecidableEq

/-- The `main` of `update_cochrane.py` on one run's inputs: discovery,
existing-identifier filter, cap, processing, append, YAML validation
(`yamlOk` is `yaml.safe_load` succeeding), exit and output. -/
def mainRun (ser : Ser) (yamlOk : List Char → Bool) (o : Ext) (args : Args)
    (entries : List Entry) (links : List Link) (content : List Char) :
    RunResult :=
  if (discover entries links).isEmpty then ⟨content, 0, none⟩
  else if (newCandidates entries links content).isEmpty then
    ⟨content, 0, none⟩
  else if args.dryRun then ⟨content, 0, none⟩
  else
    let processed := processedSummaries o entries links content args.maxReviews
    if processed.isEmpty then ⟨content, 0, some (0, [])⟩
    else
      let content2 := appendToSummaries ser content processed
      if yamlOk content2 then
        ⟨content2, 0, some (processed.length, processed.map Summary.url)⟩
      else ⟨content2, 1, none⟩

/-! The date-backfill script `add_dates.py`. -/

/-- Generic left-to-right `re.search` driver: try the anchored matcher at
every position, leftmost success wins. -/
def searchAt (m : List Char → Option (List Char)) : List Char → Option (List Char)
  | [] => m []
  | c :: rest =>
    match m (c :: rest) with
    | some r => some r
    | none => searchAt m rest

def doi1Prefix : List Char := strL "10.1002/14651858.CD"

/-- Anchored match of `10\.1002/14651858\.CD\d+(?:\.pub\d+)?`. -/
def matchDoi1At (l : List Char) : Option (List Char) :=
  if leadsWith doi1Prefix l then
    let rest := l.drop doi1Prefix.length
    if rest.takeWhile Char.isDigit = [] then none
    else
      let ds := rest.takeWhile Char.isDigit
      let rest2 := rest.dropWhile Char.isDigit
      if leadsWith (strL ".pub") rest2 then
        if (rest2.drop 4).takeWhile Char.isDigit = [] then
          some (doi1Prefix ++ ds)
        else
          some (doi1Prefix ++ ds ++ strL ".pub" ++
            (rest2.drop 4).takeWhile Char.isDigit)
      else some (doi1Prefix ++ ds)
  else none

/-- Anchored match of `doi/(10\.[^/]+/[^/]+)`, returning group 1. -/
def matchDoi2At (l : List Char) : Option (List Char) :=
  if leadsWith (strL "doi/10.") l then
    let rest := l.drop 7
    if rest.takeWhile (fun c => !(c = '/')) = [] then none
    else
      match rest.dropWhile (fun c => !(c = '/')) with
      | '/' :: rest2 =>
        if rest2.takeWhile (fun c => !(c = '/')) = [] then none
        else some (strL "10." ++ rest.takeWhile (fun c => !(c = '/')) ++
          '/' :: rest2.takeWhile (fun c => !(c = '/')))
      | _ => none
  else none

/-- `extract_doi`: first pattern wins, else the second. -/
def extract_doi (url : List Char) : Option (List Char) :=
  match searchAt matchDoi1At url with
  | some d => some d
  | none => searchAt matchDoi2At url

/-- Anchored case-insensitive match of `(CD\d+)`, already uppercased as
`extract_cd_number` does with `.upper()`. -/
def matchCDIAt : List Char → Option (List Char)
  | a :: b :: rest =>
    if (a = 'C' || a = 'c') && (b = 'D' || b = 'd') then
      if rest.takeWhile Char.isDigit = [] then none
      else some ('C' :: 'D' :: rest.takeWhile Char.isDigit)
    else none
  | _ => none

/-- `extract_cd_number`. -/
def extract_cd_number (url : List Char) : Option (List Char) :=
  searchAt matchCDIAt url

/-- A CrossRef works response message: each candidate date field is
possibly absent, and a present field's `date-parts` entry is itself
possibly absent. -/
structure CrossrefMessage where
  published : Option (Option (List (List Int)))
  issued : Option (Option (List (List Int)))
  publishedOnline : Option (Option (List (List Int)))
  created : Option (Option (List (List Int)))
deriving DecidableEq

/-- `message[field].get("date-parts", [[]])[0]`: a missing `date-parts`
defaults to `[[]]` whose first element is `[]`; indexing an empty list
raises (modelled as `none`, caught by the function's `except`). -/
def partsOf : Option (List (List Int)) → Option (List Int)
  | none => some []
  | some ll => ll.head?

/-- The `len(date_parts) >= 3 / >= 2 / >= 1` formatting chain. -/
def formatParts : List Int → Option (List Char)
  | y :: mo :: d :: _ => some (intStr y ++ '-' :: (pad2 mo ++ '-' :: pad2 d))
  | [y, mo] => some (intStr y ++ '-' :: (pad2 mo ++ strL "-01"))
  | [y] => some (intStr y ++ strL "-01-01")
  | [] => none

/-- The field loop of `get_date_from_crossref`: skip absent fields; a
present field with empty `date-parts` list aborts (exception caught to
`None`); a present field whose first parts list is empty falls through
to the next field; otherwise return the formatted date. -/
def tryFields : List (Option (Option (List (List Int)))) → Option (List Char)
  | [] => none
  | none :: rest => tryFields rest
  | some dp :: rest =>
    match partsOf dp with
    | none => none
    | some parts =>
      match formatParts parts with
      | some s => some s
      | none => tryFields rest

/-- The fixed preference order of date fields. -/
def fieldSeq (m : CrossrefMessage) : List (Option (Option (List (List Int)))) :=
  [m.published, m.issued, m.publishedOnline, m.created]

/-- External collaborators of the backfill: the CrossRef API (a 200
response's parsed message, else `none`) and the Cochrane page fetch (a
200 response's body text, else `none`). -/
structure DateExt where
  crossrefResp : List Char → Option CrossrefMessage
  cochraneBody : List Char → Option (List Char)

/-- `get_date_from_crossref`. -/
def get_date_from_crossref (o : DateExt) (doi : List Char) : Option (List Char) :=
  match o.crossrefResp doi with
  | none => none
  | some m => tryFields (fieldSeq m)

def isSpaceCh (c : Char) : Bool :=
  c = ' ' || c = '\t' || c = '\n' || c = '\r' ||
  c = Char.ofNat 11 || c = Char.ofNat 12

def dpKey : List Char := strL "\"datePublished\""

/-- Anchored match of `"datePublished"\s*:\s*"([^"]+)"`, returning
group 1. -/
def matchDatePubAt (l : List Char) : Option (List Char) :=
  if leadsWith dpKey l then
    match (l.drop dpKey.length).dropWhile isSpaceCh with
    | ':' :: r2 =>
      match r2.dropWhile isSpaceCh with
      | c :: r4 =>
        if c = '\"' then
          if r4.takeWhile (fun d => !(d = '\"')) = [] then none
          else
            match r4.dropWhile (fun d => !(d = '\"')) with
            | e :: _ =>
              if e = '\"' then some (r4.takeWhile (fun d => !(d = '\"')))
              else none
            | [] => none
        else none
      | [] => none
    | _ => none
  else none

/-- `re.match(r'(\d{4})-(\d{2})-(\d{2})', date_str)` and the regrouping
into `YYYY-MM-DD`. -/
def parseIsoPrefix : List Char → Option (List Char)
  | y1 :: y2 :: y3 :: y4 :: s1 :: m1 :: m2 :: s2 :: d1 :: d2 :: _ =>
    if y1.isDigit && y2.isDigit && y3.isDigit && y4.isDigit && s1 = '-' &&
       m1.isDigit && m2.isDigit && s2 = '-' && d1.isDigit && d2.isDigit then
      some [y1, y2, y3, y4, '-', m1, m2, '-', d1, d2]
    else none
  | _ => none

/-- `get_date_from_cochrane_page`: scan the page body for the JSON-LD
`datePublished` value and take its leading ISO date. -/
def get_date_from_cochrane_page (o : DateExt) (cd : List Char) :
    Option (List Char) :=
  match o.cochraneBody cd with
  | none => none
  | some body =>
    match searchAt matchDatePubAt body with
    | none => none
    | some ds => parseIsoPrefix ds

/-- A persisted record as the backfill reads it. -/
structure EntryRec where
  url : List Char
  question : List Char
  answer : List Char
  notes : List Char
  interest : Int
  tags : List (List Char)
  date : Option (List Char)
deriving DecidableEq

/-- Python truthiness of `entry.get("date")`: absent or empty is falsy. -/
def truthyDate : Option (List Char) → Bool
  | none => false
  | some d => !d.isEmpty

/-- `get_date_for_entry`: skip when a date is already present, otherwise
CrossRef (when a DOI can be derived) then the Cochrane page (when a CD
number can be derived); result is paired with the record's index. -/
def get_date_for_entry (o : DateExt) (e : EntryRec) (i : Nat) :
    Nat × Option (List Char) :=
  if truthyDate e.date then (i, e.date)
  else
    match (match extract_doi e.url with
           | some doi => get_date_from_crossref o doi
           | none => none) with
    | some d => (i, some d)
    | none =>
      match extract_cd_number e.url with
      | some cd =>
        match get_date_from_cochrane_page o cd with
        | some d => (i, some d)
        | none => (i, none)
      | none => (i, none)

/-- The page-scrape half of the per-record chain: derive the CD number,
then scrape the publisher page. -/
def cochraneChain (o : DateExt) (url : List Char) : Option (List Char) :=
  match extract_cd_number url with
  | some cd => get_date_from_cochrane_page o cd
  | none => none

/-- The futures built by the backfill `main`: one task per record without
a truthy date, carrying the record's index. -/
def pendingTasks (o : DateExt) : Nat → List EntryRec → List (Nat × Option (List Char))
  | _, [] => []
  | i, e :: rest =>
    if truthyDate e.date then pendingTasks o (i + 1) rest
    else get_date_for_entry o e i :: pendingTasks o (i + 1) rest

def dfltEntry : EntryRec := ⟨[], [], [], [], 0, [], none⟩

/-- `summaries[index]["date"] = date`. -/
def setDate (e : EntryRec) (d : List Char) : EntryRec := { e with date := some d }

/-- The `as_completed` merge loop: each completed `(index, date)` pair
with a date writes that record's date slot; the argument order is the
completion order. -/
def mergeResults (s : List EntryRec)
    (results : List (Nat × Option (List Char))) : List EntryRec :=
  results.foldl
    (fun acc r =>
      match r.2 with
      | some d => acc.set r.1 (setDate (acc.getD r.1 dfltEntry) d)
      | none => acc)
    s

/-! The extraction strategies of `fetch_plain_language_summary`. The
page is modelled at the level the heuristic inspects it: a sequence of
sibling elements, each with a tag name, its `get_text()` text and its
`get_text(strip=True)` text. -/

structure Elem where
  tag : List Char
  text : List Char
  stext : List Char
deriving DecidableEq

/-- The tag list `['h2', 'h3', 'h4']` passed to `find_all` and used for
the break test. -/
def headingTags : List (List Char) := [strL "h2", strL "h3", strL "h4"]

def isHeadingTag (t : List Char) : Bool := decide (t ∈ headingTags)

def plainLangPat : List Char := strL "plain language"

def lowerStr (l : List Char) : List Char := l.map Char.toLower

/-- The loop's header test: an h2/h3/h4 element whose lowercased text
contains "plain language". -/
def headerMatches (e : Elem) : Bool :=
  isHeadingTag e.tag && occursIn plainLangPat (lowerStr e.text)

/-- The sibling walk: collect each following sibling's stripped text,
stopping at the first h2/h3/h4 sibling. -/
def collectParts : List Elem → List (List Char)
  | [] => []
  | e :: rest =>
    if isHeadingTag e.tag then [] else e.stext :: collectParts rest

/-- The heuristic fallback of `fetch_plain_language_summary`: the first
matching header whose collected sibling parts are nonempty yields the
parts joined by blank lines. -/
def heuristicFallback : List Elem → Option (List Char)
  | [] => none
  | e :: rest =>
    if headerMatches e then
      match collectParts rest with
      | [] => heuristicFallback rest
      | p :: ps => some (joinSep (strL "\n\n") (p :: ps))
    else heuristicFallback rest

/-- Heading level of a tag name (`h2` is level 2, …). -/
def headingLevel (t : List Char) : Option Nat :=
  match t with
  | ['h', c] => if c.isDigit then some (c.toNat - 48) else none
  | _ => none

/-- The collection rule as the claim states it: stop only at a following
heading of level equal to or higher than the matched heading, collect
through lower-level headings. -/
def collectPartsClaimed (lvl : Nat) : List Elem → List (List Char)
  | [] => []
  | e :: rest =>
    match headingLevel e.tag with
    | some l2 =>
      if l2 ≤ lvl then [] else e.stext :: collectPartsClaimed lvl rest
    | none => e.stext :: collectPartsClaimed lvl rest

/-- The heuristic fallback as the claim describes it, for comparison with
`heuristicFallback`. -/
def heuristicFallbackClaimed : List Elem → Option (List Char)
  | [] => none
  | e :: rest =>
    if headerMatches e then
      match collectPartsClaimed ((headingLevel e.tag).getD 0) rest with
      | [] => heuristicFallbackClaimed rest
      | p :: ps => some (joinSep (strL "\n\n") (p :: ps))
    else heuristicFallbackClaimed rest

/-- The strategy chain of `fetch_plain_language_summary` after a page is
fetched: a structural-selector hit wins, else the heuristic fallback,
else the first five paragraphs of the article container. -/
def fetch_pls_extract (selectorHit : Option (List Char)) (doc : List Elem)
    (articleParas : Option (List (List Char))) : Option (List Char) :=
  match selectorHit with
  | some t => some t
  | none =>
    match heuristicFallback doc with
    | some t => some t
    | none =>
      match articleParas with
      | some ps =>
        if ps.isEmpty then none
        else some (joinSep (strL "\n\n") (ps.take 5))
      | none => none

/-! Theorems. -/

/-- The first present date field in the code's preference order. -/
def firstPresentField (m : CrossrefMessage) :
    Option (Option (List (List Int))) :=
  match m.published with
  | some v => some v
  | none =>
    match m.issued with
    | some v => some v
    | none =>
      match m.publishedOnline with
      | some v => some v
      | none => m.created

theorem tryFields_firstPresent {m : CrossrefMessage}
    {dp : Option (List (List Int))} {parts : List Int} {out : List Char}
    (hfield : firstPresentField m = some dp)
    (hparts : partsOf dp = some parts)
    (hfmt : formatParts parts = some out) :
    tryFields (fieldSeq m) = some out := by
  obtain ⟨p1, p2, p3, p4⟩ := m
  cases p1 with
  | some v =>
    cases hfield
    simp [fieldSeq, tryFields, hparts, hfmt]
  | none =>
    cases p2 with
    | some v =>
      cases hfield
      simp [fieldSeq, tryFields, hparts, hfmt]
    | none =>
      cases p3 with
      | some v =>
        cases hfield
        simp [fieldSeq, tryFields, hparts, hfmt]
      | none =>
        cases hfield
        simp [fieldSeq, tryFields, hparts, hfmt]

theorem natStr_lt {n : Nat} (h : n < 10) :
    natStr n = [Char.ofNat (48 + n)] := by
  rw [natStr.eq_def]
  simp [h]

theorem natStr_ge {n : Nat} (h : ¬ n < 10) :
    natStr n = natStr (n / 10) ++ [Char.ofNat (48 + n % 10)] := by
  rw [natStr.eq_def]
  simp [h]

theorem pad2_len {i : Int} (h0 : 0 ≤ i) (h1 : i < 100) :
    (pad2 i).length = 2 := by
  have hneg : ¬ i < 0 := by omega
  by_cases h : i.toNat < 10
  · have hlen : (intStr i).length = 1 := by
      rw [intStr, if_neg hneg, natStr_lt h]
      rfl
    rw [pad2, if_pos (by omega)]
    simp [hlen]
  · have h10 : i.toNat / 10 < 10 := by omega
    have hlen : (intStr i).length = 2 := by
      rw [intStr, if_neg hneg, natStr_ge h, natStr_lt h10]
      rfl
    rw [pad2, if_neg (by omega)]
    exact hlen

/-- C4: for a CrossRef response whose first present date field has a
usable `date-parts` list, a single part yields `YYYY-01-01`, two parts
yield `YYYY-MM-01` with the month zero-padded, and three or more parts
yield the exact zero-padded `YYYY-MM-DD`; the two-digit pad really is
two characters for the calendar ranges involved. -/
theorem date_granularity_degradation (o : DateExt) (doi : List Char)
    (m : CrossrefMessage) (dp : Option (List (List Int)))
    (hresp : o.crossrefResp doi = some m)
    (hfield : firstPresentField m = some dp) :
    (∀ y, partsOf dp = some [y] →
      get_date_from_crossref o doi = some (intStr y ++ strL "-01-01"))
    ∧ (∀ y mo, partsOf dp = some [y, mo] →
      get_date_from_crossref o doi =
        some (intStr y ++ '-' :: (pad2 mo ++ strL "-01")))
    ∧ (∀ y mo d tl, partsOf dp = some (y :: mo :: d :: tl) →
      get_date_from_crossref o doi =
        some (intStr y ++ '-' :: (pad2 mo ++ '-' :: pad2 d)))
    ∧ (∀ i : Int, 0 ≤ i → i < 100 → (pad2 i).length = 2) := by
  refine ⟨?_, ?_, ?_, fun i h0 h1 => pad2_len h0 h1⟩
  · intro y hp
    rw [get_date_from_crossref, hresp]
    exact tryFields_firstPresent hfield hp (by rfl)
  · intro y mo hp
    rw [get_date_from_crossref, hresp]
    exact tryFields_firstPresent hfield hp (by rfl)
  · intro y mo d tl hp
    rw [get_date_from_crossref, hresp]
    exact tryFields_firstPresent hfield hp (by rfl)

/-- Example message whose first present field carries a year-only
`date-parts`. -/
def msgW : CrossrefMessage := ⟨none, some (some [[7]]), none, none⟩

def dateExtW : DateExt :=
  ⟨fun _ => some msgW, fun _ => none⟩

/-- Witness for C4 at a concrete response. -/
theorem date_granularity_degradation_witness :
    get_date_from_crossref dateExtW (strL "10.1002/x") =
      some (strL "7-01-01") := by
  have h := (date_granularity_degradation dateExtW (strL "10.1002/x") msgW
    (some [[7]]) rfl rfl).1 7 rfl
  have h7 : intStr 7 = ['7'] := by
    simp only [intStr]
    rw [if_neg (by omega), natStr_lt (by decide)]
    decide
  rw [h, h7]
  try decide

/-- The CrossRef half of the per-record chain in `get_date_for_entry`. -/
def crossrefChain (o : DateExt) (url : List Char) : Option (List Char) :=
  match extract_doi url with
  | some doi => get_date_from_crossref o doi
  | none => none

/-- C5: when a record has no date and the CrossRef chain yields nothing
(no derivable DOI, a failed request, or a dateless response), the
record's result is exactly the Cochrane-page chain's outcome; in
particular a successful page scrape supplies the returned date. -/
theorem date_fallback_ordering (o : DateExt) (e : EntryRec) (i : Nat)
    (hnodate : truthyDate e.date = false)
    (hcross : crossrefChain o e.url = none) :
    get_date_for_entry o e i = (i, cochraneChain o e.url)
    ∧ ∀ d, cochraneChain o e.url = some d →
        get_date_for_entry o e i = (i, some d) := by
  have hmain : get_date_for_entry o e i = (i, cochraneChain o e.url) := by
    rw [get_date_for_entry, if_neg (by simp [hnodate])]
    rw [cochraneChain]
    have hc : (match extract_doi e.url with
               | some doi => get_date_from_crossref o doi
               | none => none) = none := hcross
    rw [hc]
    cases hcd : extract_cd_number e.url with
    | none => rfl
    | some cd =>
      show (match get_date_from_cochrane_page o cd with
            | some d => (i, some d)
            | none => (i, none)) = (i, get_date_from_cochrane_page o cd)
      cases get_date_from_cochrane_page o cd <;> rfl
  refine ⟨hmain, fun d hd => ?_⟩
  rw [hmain, hd]

/-- Concrete record for the C5 witness: the url yields no DOI but does
yield a CD number, and the page body carries a `datePublished`. -/
def entryW : EntryRec :=
  ⟨strL "https://www.cochrane.org/CD000088", [], [], [], 0, [], none⟩

def pageBodyW : List Char := strL "x\"datePublished\": \"2021-03-09T00:00\""

def dateExtW2 : DateExt := ⟨fun _ => none, fun _ => some pageBodyW⟩

/-- Witness for C5: the CrossRef chain fails, the page scrape succeeds,
and the record's resolved date is the page-scrape value. -/
theorem date_fallback_ordering_witness :
    get_date_for_entry dateExtW2 entryW 3 = (3, some (strL "2021-03-09")) := by
  have hcross : crossrefChain dateExtW2 entryW.url = none := by
    rw [crossrefChain]
    have hdoi : extract_doi entryW.url = none := by decide
    rw [hdoi]
  have h := (date_fallback_ordering dateExtW2 entryW 3 rfl hcross).2
    (strL "2021-03-09")
  apply h
  rw [cochraneChain]
  have hcd : extract_cd_number entryW.url = some (strL "CD000088") := by
    decide
  rw [hcd]
  show (match searchAt matchDatePubAt pageBodyW with
        | none => none
        | some ds => parseIsoPrefix ds) = some (strL "2021-03-09")
  have hs : searchAt matchDatePubAt pageBodyW =
      some (strL "2021-03-09T00:00") := by decide
  rw [hs]
  decide

theorem braceSpanAt_decomp {l m : List Char} (h : braceSpanAt l = some m) :
    ∃ body tail, m = (lbrace :: body) ++ [rbrace] ∧
      (∀ c ∈ body, c ≠ lbrace ∧ c ≠ rbrace) ∧ l = m ++ tail := by
  match l with
  | [] => simp [braceSpanAt] at h
  | c :: rest =>
    simp only [braceSpanAt] at h
    by_cases hcond : c = lbrace ∧
        (rest.dropWhile (fun d => !(d = lbrace || d = rbrace))).head? =
          some rbrace
    · rw [if_pos hcond] at h
      obtain ⟨hc, hh⟩ := hcond
      subst hc
      cases h
      cases hdw : rest.dropWhile (fun d => !(d = lbrace || d = rbrace)) with
      | nil => rw [hdw] at hh; simp at hh
      | cons d t =>
        rw [hdw] at hh
        simp only [List.head?_cons, Option.some.injEq] at hh
        subst hh
        refine ⟨rest.takeWhile (fun d => !(d = lbrace || d = rbrace)), t,
          rfl, ?_, ?_⟩
        · intro x hx
          have := mem_takeWhile_pred hx
          simp only [Bool.not_eq_eq_eq_not, Bool.not_true,
            Bool.or_eq_false_iff, decide_eq_false_iff_not] at this
          exact this
        · have hsplit := List.takeWhile_append_dropWhile
            (p := fun d => !(d = lbrace || d = rbrace)) (l := rest)
          rw [hdw] at hsplit
          calc lbrace :: rest
              = lbrace :: (rest.takeWhile
                  (fun d => !(d = lbrace || d = rbrace)) ++ rbrace :: t) := by
                rw [hsplit]
            _ = ((lbrace :: rest.takeWhile
                  (fun d => !(d = lbrace || d = rbrace))) ++ [rbrace]) ++ t := by
                simp
    · rw [if_neg hcond] at h
      exact absurd h (by simp)

theorem extractBrace_decomp :
    ∀ {resp m : List Char}, extractBrace resp = some m →
      ∃ pre body post, resp = (pre ++ m) ++ post ∧
        m = (lbrace :: body) ++ [rbrace] ∧
        ∀ c ∈ body, c ≠ lbrace ∧ c ≠ rbrace := by
  intro resp
  induction resp with
  | nil => intro m h; simp [extractBrace] at h
  | cons c rest ih =>
    intro m h
    simp only [extractBrace] at h
    cases hb : braceSpanAt (c :: rest) with
    | some m' =>
      rw [hb] at h
      cases h
      obtain ⟨body, tail, h1, h2, h3⟩ := braceSpanAt_decomp hb
      exact ⟨[], body, tail, by simpa using h3, h1, h2⟩
    | none =>
      rw [hb] at h
      obtain ⟨pre, body, post, h1, h2, h3⟩ := ih h
      exact ⟨c :: pre, body, post, by simp [h1], h2, h3⟩

/-- C8: with a model response in hand, `summarize_review` returns the
object loaded from the first brace-delimited span when no skip flag is
set; it returns nothing (rather than raising) when no span exists or the
span fails to load; and the extracted span really is the first
brace-delimited brace-free region of the response. -/
theorem summarize_parse_semantics (o : Ext) (pls resp : List Char)
    (hc : o.claudeSummarize pls = some resp) :
    (∀ span obj, extractBrace resp = some span →
      o.loadsSummary span = some obj → obj.skip = false →
      summarize_review o pls = some obj)
    ∧ (extractBrace resp = none → summarize_review o pls = none)
    ∧ (∀ span, extractBrace resp = some span → o.loadsSummary span = none →
      summarize_review o pls = none)
    ∧ (∀ span, extractBrace resp = some span → ∃ pre body post,
      resp = (pre ++ span) ++ post ∧ span = (lbrace :: body) ++ [rbrace] ∧
      ∀ c ∈ body, c ≠ lbrace ∧ c ≠ rbrace) := by
  refine ⟨?_, ?_, ?_, fun span hspan => extractBrace_decomp hspan⟩
  · intro span obj hspan hload hskip
    simp [summarize_review, hc, hspan, hload, hskip]
  · intro hspan
    simp [summarize_review, hc, hspan]
  · intro span hspan hload
    simp [summarize_review, hc, hspan, hload]

def respW : List Char := ('x' :: lbrace :: strL "\"a\": 1") ++ [rbrace]

def spanW : List Char := (lbrace :: strL "\"a\": 1") ++ [rbrace]

def objW : ModelObject := ⟨false, strL "q", strL "a", strL "n"⟩

def extW : Ext :=
  ⟨fun _ _ => some (strL "P"), fun _ => some respW,
   fun _ _ _ => some (strL "E"), fun _ => some objW,
   fun _ => some ⟨none, none⟩⟩

/-- Witness for C8 at a concrete response. -/
theorem summarize_parse_semantics_witness :
    summarize_review extW (strL "P") = some objW := by
  exact (summarize_parse_semantics extW (strL "P") respW rfl).1 spanW objW
    (by decide) rfl rfl

def objSkipW : ModelObject := ⟨true, [], [], []⟩

def extSkipW : Ext :=
  ⟨fun _ _ => some (strL "P"), fun _ => some respW,
   fun _ _ _ => some (strL "E"), fun _ => some objSkipW,
   fun _ => some ⟨none, none⟩⟩

def candW : Candidate := ⟨strL "CD1", strL "u", strL "t"⟩

/-- C3: a model response whose parsed object carries a truthy skip flag
makes `summarize_review` return nothing; the candidate is dropped for
any enrichment behaviour whatsoever (enrichment is never reached); and
the batch passed to the store append is the same as if the candidate
were absent. -/
theorem skip_propagation (o : Ext) (r : Candidate) (pls resp span : List Char)
    (obj : ModelObject)
    (hf : o.fetchPLS r.url r.cd_number = some pls)
    (hc : o.claudeSummarize pls = some resp)
    (he : extractBrace resp = some span)
    (hl : o.loadsSummary span = some obj)
    (hskip : obj.skip = true) :
    summarize_review o pls = none
    ∧ (∀ o' : Ext, o'.fetchPLS = o.fetchPLS →
        o'.claudeSummarize = o.claudeSummarize →
        o'.loadsSummary = o.loadsSummary → processOne o' r = none)
    ∧ ∀ l₁ l₂ : List Candidate,
        (l₁ ++ r :: l₂).filterMap (processOne o) =
          (l₁ ++ l₂).filterMap (processOne o) := by
  have hsum : ∀ o' : Ext, o'.claudeSummarize = o.claudeSummarize →
      o'.loadsSummary = o.loadsSummary → summarize_review o' pls = none := by
    intro o' h1 h2
    simp [summarize_review, h1, hc, he, h2, hl, hskip]
  have hproc : ∀ o' : Ext, o'.fetchPLS = o.fetchPLS →
      o'.claudeSummarize = o.claudeSummarize →
      o'.loadsSummary = o.loadsSummary → processOne o' r = none := by
    intro o' h0 h1 h2
    have hs := hsum o' h1 h2
    by_cases hp : pls.isEmpty <;>
      simp [processOne, h0, hf, hs, hp]
  refine ⟨hsum o rfl rfl, hproc, fun l₁ l₂ => ?_⟩
  rw [List.filterMap_append, List.filterMap_append, List.filterMap_cons,
    hproc o rfl rfl rfl]

/-- Witness for C3: the skip response drops the candidate. -/
theorem skip_propagation_witness :
    summarize_review extSkipW (strL "P") = none
    ∧ processOne extSkipW candW = none := by
  have h := skip_propagation extSkipW candW (strL "P") respW spanW objSkipW
    rfl rfl (by decide) rfl rfl
  exact ⟨h.1, h.2.1 extSkipW rfl rfl rfl⟩

/-- C2: whenever a run appends at least one record and the appended
store fails YAML validation, the run ends with exit code 1 and emits no
machine-readable success output, leaving the appended text on disk. -/
theorem validation_gate (ser : Ser) (yv : List Char → Bool) (o : Ext)
    (mr : Nat) (entries : List Entry) (links : List Link)
    (content : List Char)
    (hne : processedSummaries o entries links content mr ≠ [])
    (hbad : yv (appendToSummaries ser content
      (processedSummaries o entries links content mr)) = false) :
    mainRun ser yv o ⟨false, mr⟩ entries links content =
      ⟨appendToSummaries ser content
        (processedSummaries o entries links content mr), 1, none⟩ := by
  have hnc : newCandidates entries links content ≠ [] := by
    intro h
    apply hne
    simp [processedSummaries, h]
  have hd : discover entries links ≠ [] := by
    intro h
    apply hnc
    simp [newCandidates, h]
  simp only [mainRun]
  rw [if_neg (by rw [List.isEmpty_iff]; exact hd),
    if_neg (by rw [List.isEmpty_iff]; exact hnc),
    if_neg (by simp),
    if_neg (by rw [List.isEmpty_iff]; exact hne),
    if_neg (by rw [hbad]; simp)]

theorem searchCD_CDdigit (c : Char) (hc : c.isDigit = true) :
    searchCD ['C', 'D', c] = some ['C', 'D', c] := by
  rw [searchCD]
  have h1 : List.takeWhile Char.isDigit [c] = [c] := by
    simp [List.takeWhile_cons, hc]
  have h2 : List.dropWhile Char.isDigit [c] = [] := by
    simp [List.dropWhile_cons, hc]
  rw [show (['C', 'D', c] : List Char) = 'C' :: 'D' :: [c] from rfl]
  rw [findAllCD_CD_digit _ (by rw [h1]; simp), h1, h2, findAllCD_nil]
  rfl

/-- Full-success oracle used by run witnesses. -/
def extRunW : Ext :=
  ⟨fun _ _ => some (strL "P"), fun _ => some respW, fun _ _ _ => some respW,
   fun _ => some objW, fun _ => some ⟨some 7, some [strL "pain"]⟩⟩

def serW : Ser := ⟨fun s => s, fun _ => []⟩

def entriesW : List Entry := [⟨strL "CD7", strL "T"⟩]

def candRunW : Candidate := ⟨strL "CD7", strL "CD7", strL "T"⟩

def sumRunW : Summary :=
  ⟨strL "q", strL "a", strL "CD7", strL "n", 7, [strL "pain"]⟩

theorem newCandidates_witness_eval :
    newCandidates entriesW [] ([] : List Char) = [candRunW] := by
  have hs : searchCD (strL "CD7") = some (strL "CD7") := by
    have := searchCD_CDdigit '7' (by decide)
    simpa using this
  simp [newCandidates, discover, fetch_rss_reviews, entriesW,
    List.filterMap_cons, hs, findAllCD_nil, candRunW]

theorem processOne_witness_eval : processOne extRunW candRunW = some sumRunW := by
  decide

theorem processedSummaries_witness_eval (mr : Nat) (h : 1 ≤ mr) :
    processedSummaries extRunW entriesW [] ([] : List Char) mr = [sumRunW] := by
  rw [processedSummaries, newCandidates_witness_eval]
  match mr, h with
  | n + 1, _ =>
    simp [List.filterMap_cons, processOne_witness_eval]

/-- Witness for C2: a one-candidate run whose validator rejects the
appended store exits 1 without success output. -/
theorem validation_gate_witness :
    mainRun serW (fun _ => false) extRunW ⟨false, 5⟩ entriesW [] [] =
      ⟨appendToSummaries serW []
        (processedSummaries extRunW entriesW [] [] 5), 1, none⟩ := by
  exact validation_gate serW (fun _ => false) extRunW 5 entriesW [] []
    (by rw [processedSummaries_witness_eval 5 (by omega)]; simp) rfl

theorem collectParts_eq (l : List Elem) :
    collectParts l =
      (l.takeWhile (fun e => !isHeadingTag e.tag)).map Elem.stext := by
  induction l with
  | nil => rfl
  | cons e rest ih =>
    by_cases h : isHeadingTag e.tag <;>
      simp [collectParts, List.takeWhile_cons, h, ih]

/-- C7 counterexample: on a document whose matched `h2` heading is
followed by a paragraph, an `h3` subheading and another paragraph, the
code stops at the `h3` (a lower-level heading), while the claimed
equal-or-higher-level rule would collect through it. -/
def exDoc : List Elem :=
  [⟨strL "h2", strL "Plain language summary", strL "Plain language summary"⟩,
   ⟨strL "p", strL "A", strL "A"⟩,
   ⟨strL "h3", strL "Sub", strL "Sub"⟩,
   ⟨strL "p", strL "B", strL "B"⟩]

/-- C7 is false as stated: the code's heuristic and the claimed
equal-or-higher-level collection rule disagree on `exDoc`. -/
theorem heuristic_fallback_counterexample :
    heuristicFallback exDoc = some (strL "A")
    ∧ heuristicFallbackClaimed exDoc = some (strL "A\n\nSub\n\nB")
    ∧ heuristicFallback exDoc ≠ heuristicFallbackClaimed exDoc := by
  decide

/-- C7 amended: when no structural selector matches, the heuristic scans
heading elements for "plain language" (case-insensitive) and, for the
first match with non-empty following sibling content, returns the text
of all sibling elements up to but excluding the next h2/h3/h4 heading —
regardless of its level relative to the matched heading — joined by
blank lines. -/
theorem heuristic_fallback_amended (pre : List Elem) (e : Elem)
    (rest : List Elem) (paras : Option (List (List Char)))
    (hpre : ∀ p1 p2 x, pre = p1 ++ x :: p2 → headerMatches x = true →
      collectParts (p2 ++ e :: rest) = [])
    (hm : headerMatches e = true)
    (hne : collectParts rest ≠ []) :
    heuristicFallback (pre ++ e :: rest) =
      some (joinSep (strL "\n\n")
        ((rest.takeWhile (fun x => !isHeadingTag x.tag)).map Elem.stext))
    ∧ fetch_pls_extract none (pre ++ e :: rest) paras =
      some (joinSep (strL "\n\n")
        ((rest.takeWhile (fun x => !isHeadingTag x.tag)).map Elem.stext)) := by
  have main : ∀ pre' : List Elem,
      (∀ p1 p2 x, pre' = p1 ++ x :: p2 → headerMatches x = true →
        collectParts (p2 ++ e :: rest) = []) →
      heuristicFallback (pre' ++ e :: rest) =
        some (joinSep (strL "\n\n")
          ((rest.takeWhile (fun x => !isHeadingTag x.tag)).map Elem.stext)) := by
    intro pre'
    induction pre' with
    | nil =>
      intro _
      cases hcp : collectParts rest with
      | nil => exact absurd hcp hne
      | cons p ps =>
        have hj : (rest.takeWhile (fun x => !isHeadingTag x.tag)).map Elem.stext
            = p :: ps := by
          rw [← collectParts_eq]
          exact hcp
        simp [heuristicFallback, hm, hcp, hj]
    | cons x pre'' ih =>
      intro hpre'
      have hstep : heuristicFallback ((x :: pre'') ++ e :: rest) =
          heuristicFallback (pre'' ++ e :: rest) := by
        by_cases hx : headerMatches x = true
        · have hempty := hpre' [] pre'' x rfl hx
          simp [heuristicFallback, hx, hempty]
        · simp [heuristicFallback, hx]
      rw [hstep]
      exact ih fun p1 p2 y heq hy =>
        hpre' (x :: p1) p2 y (by rw [heq]; rfl) hy
  have h1 := main pre hpre
  refine ⟨h1, ?_⟩
  simp [fetch_pls_extract, h1]

/-- Witness for the amended C7 at a concrete document. -/
theorem heuristic_fallback_amended_witness :
    heuristicFallback
      [⟨strL "h3", strL "Plain Language Summary", strL "Plain Language Summary"⟩,
       ⟨strL "p", strL "A", strL "A"⟩, ⟨strL "h4", strL "S", strL "S"⟩] =
      some (strL "A") := by
  have h := (heuristic_fallback_amended []
    ⟨strL "h3", strL "Plain Language Summary", strL "Plain Language Summary"⟩
    [⟨strL "p", strL "A", strL "A"⟩, ⟨strL "h4", strL "S", strL "S"⟩] none
    (by intro p1 p2 x hx _; simp at hx)
    (by decide) (by decide)).1
  rw [show ([⟨strL "h3", strL "Plain Language Summary",
      strL "Plain Language Summary"⟩,
    ⟨strL "p", strL "A", strL "A"⟩, ⟨strL "h4", strL "S", strL "S"⟩] :
      List Elem) =
    [] ++ ⟨strL "h3", strL "Plain Language Summary",
      strL "Plain Language Summary"⟩ ::
      [⟨strL "p", strL "A", strL "A"⟩, ⟨strL "h4", strL "S", strL "S"⟩]
    from rfl]
  rw [h]
  decide

/-- C10: the run never processes a candidate beyond the first
`max-reviews` surviving candidates — two oracles agreeing on those
candidates produce identical runs — and any emitted success output
reports at most `max-reviews` records and URLs. -/
theorem per_run_cap (ser : Ser) (yamlOk : List Char → Bool) (o o' : Ext)
    (args : Args) (entries : List Entry) (links : List Link)
    (content : List Char)
    (hagree : ∀ r ∈ (newCandidates entries links content).take args.maxReviews,
      processOne o r = processOne o' r) :
    mainRun ser yamlOk o args entries links content =
      mainRun ser yamlOk o' args entries links content
    ∧ ∀ cnt urls,
        (mainRun ser yamlOk o args entries links content).output =
          some (cnt, urls) →
        cnt ≤ args.maxReviews ∧ urls.length ≤ args.maxReviews := by
  have hps : processedSummaries o entries links content args.maxReviews =
      processedSummaries o' entries links content args.maxReviews := by
    unfold processedSummaries
    exact List.filterMap_congr hagree
  have hlen :
      (processedSummaries o entries links content args.maxReviews).length ≤
        args.maxReviews := by
    unfold processedSummaries
    exact le_trans (List.length_filterMap_le _ _) (List.length_take_le _ _)
  constructor
  · simp only [mainRun, hps]
  · intro cnt urls hout
    simp only [mainRun] at hout
    split at hout
    · simp at hout
    · split at hout
      · simp at hout
      · split at hout
        · simp at hout
        · split at hout
          · simp only [Option.some.injEq, Prod.mk.injEq] at hout
            obtain ⟨h1, h2⟩ := hout
            subst h1
            subst h2
            simp
          · split at hout
            · simp only [Option.some.injEq, Prod.mk.injEq] at hout
              obtain ⟨h1, h2⟩ := hout
              subst h1
              subst h2
              constructor
              · exact hlen
              · simpa using hlen
            · simp at hout

def extRunW2 : Ext :=
  ⟨fun u _ => if u = strL "CD7" then some (strL "P") else none,
   fun _ => some respW, fun _ _ _ => some respW,
   fun _ => some objW, fun _ => some ⟨some 7, some [strL "pain"]⟩⟩

def entriesW2 : List Entry := [⟨strL "CD7", strL "T"⟩, ⟨strL "CD8", strL "U"⟩]

theorem newCandidates_witness2_eval :
    newCandidates entriesW2 [] ([] : List Char) =
      [candRunW, ⟨strL "CD8", strL "CD8", strL "U"⟩] := by
  have hs7 : searchCD (strL "CD7") = some (strL "CD7") := by
    have := searchCD_CDdigit '7' (by decide)
    simpa using this
  have hs8 : searchCD (strL "CD8") = some (strL "CD8") := by
    have := searchCD_CDdigit '8' (by decide)
    simpa using this
  simp [newCandidates, discover, fetch_rss_reviews, entriesW2,
    List.filterMap_cons, hs7, hs8, findAllCD_nil, candRunW]

/-- Witness for C10: with a cap of one, an oracle that cannot fetch the
second candidate at all yields the very same run. -/
theorem per_run_cap_witness :
    mainRun serW (fun _ => true) extRunW ⟨false, 1⟩ entriesW2 [] [] =
      mainRun serW (fun _ => true) extRunW2 ⟨false, 1⟩ entriesW2 [] [] := by
  apply (per_run_cap serW (fun _ => true) extRunW extRunW2 ⟨false, 1⟩
    entriesW2 [] [] ?_).1
  rw [newCandidates_witness2_eval]
  intro r hr
  simp only [List.take_succ_cons, List.take_zero, List.mem_singleton] at hr
  subst hr
  decide

/-! Merge machinery of the backfill flow. -/

theorem get_date_for_entry_fst (o : DateExt) (e : EntryRec) (i : Nat) :
    (get_date_for_entry o e i).1 = i := by
  unfold get_date_for_entry
  split
  · rfl
  · split
    · rfl
    · split
      · split <;> rfl
      · rfl

theorem pendingTasks_mem (o : DateExt) :
    ∀ (l : List EntryRec) (i : Nat) (pr : Nat × Option (List Char)),
      pr ∈ pendingTasks o i l →
      ∃ k, k < l.length ∧ pr.1 = i + k ∧
        truthyDate ((l.getD k dfltEntry).date) = false := by
  intro l
  induction l with
  | nil => intro i pr h; simp [pendingTasks] at h
  | cons e rest ih =>
    intro i pr h
    by_cases ht : truthyDate e.date = true
    · rw [show pendingTasks o i (e :: rest) = pendingTasks o (i + 1) rest by
        simp [pendingTasks, ht]] at h
      obtain ⟨k, hk, hfst, hdate⟩ := ih (i + 1) pr h
      refine ⟨k + 1, by simpa using Nat.succ_lt_succ hk, by omega, ?_⟩
      simpa using hdate
    · rw [show pendingTasks o i (e :: rest) =
        get_date_for_entry o e i :: pendingTasks o (i + 1) rest by
        simp [pendingTasks, ht]] at h
      rcases List.mem_cons.mp h with rfl | h2
      · have ht' : truthyDate e.date = false := by simpa using ht
        refine ⟨0, by simp, ?_, ?_⟩
        · rw [get_date_for_entry_fst]
          omega
        · simpa using ht'
      · obtain ⟨k, hk, hfst, hdate⟩ := ih (i + 1) pr h2
        refine ⟨k + 1, by simpa using Nat.succ_lt_succ hk, by omega, ?_⟩
        simpa using hdate

theorem pendingTasks_pairwise (o : DateExt) :
    ∀ (l : List EntryRec) (i : Nat),
      (pendingTasks o i l).Pairwise (fun a b => a.1 ≠ b.1) := by
  intro l
  induction l with
  | nil => intro i; simp [pendingTasks]
  | cons e rest ih =>
    intro i
    by_cases ht : truthyDate e.date = true
    · rw [show pendingTasks o i (e :: rest) = pendingTasks o (i + 1) rest by
        simp [pendingTasks, ht]]
      exact ih (i + 1)
    · rw [show pendingTasks o i (e :: rest) =
        get_date_for_entry o e i :: pendingTasks o (i + 1) rest by
        simp [pendingTasks, ht]]
      refine List.Pairwise.cons ?_ (ih (i + 1))
      intro b hb
      obtain ⟨k, _, hfst, _⟩ := pendingTasks_mem o rest (i + 1) b hb
      rw [get_date_for_entry_fst, hfst]
      omega

theorem mergeResults_nil (s : List EntryRec) : mergeResults s [] = s := rfl

theorem mergeResults_cons_none (s : List EntryRec) (i : Nat)
    (rest : List (Nat × Option (List Char))) :
    mergeResults s ((i, none) :: rest) = mergeResults s rest := rfl

theorem mergeResults_cons_some (s : List EntryRec) (i : Nat) (d : List Char)
    (rest : List (Nat × Option (List Char))) :
    mergeResults s ((i, some d) :: rest) =
      mergeResults (s.set i (setDate (s.getD i dfltEntry) d)) rest := rfl

theorem mergeResults_length (results : List (Nat × Option (List Char))) :
    ∀ s : List EntryRec, (mergeResults s results).length = s.length := by
  induction results with
  | nil => intro s; rfl
  | cons pr rest ih =>
    intro s
    obtain ⟨i, v⟩ := pr
    cases v with
    | none => rw [mergeResults_cons_none]; exact ih s
    | some d =>
      rw [mergeResults_cons_some, ih]
      exact List.length_set s i _

theorem mergeResults_getElem?_not_mem
    (results : List (Nat × Option (List Char))) :
    ∀ (s : List EntryRec) (j : Nat), (∀ pr ∈ results, pr.1 ≠ j) →
      (mergeResults s results)[j]? = s[j]? := by
  induction results with
  | nil => intro s j _; rfl
  | cons pr rest ih =>
    intro s j hne
    obtain ⟨i, v⟩ := pr
    have hij : i ≠ j := hne (i, v) (by simp)
    have htail : ∀ pr ∈ rest, pr.1 ≠ j := fun pr hpr => hne pr (by simp [hpr])
    cases v with
    | none => rw [mergeResults_cons_none]; exact ih s j htail
    | some d =>
      rw [mergeResults_cons_some, ih _ j htail, List.getElem?_set_ne hij]

/-- Pointwise description of the merge loop over distinct-index results:
position `j` receives the found date when the results carry one for `j`,
and is untouched otherwise. -/
theorem mergeResults_pointwise (results : List (Nat × Option (List Char))) :
    ∀ (s : List EntryRec),
      results.Pairwise (fun a b => a.1 ≠ b.1) → ∀ j : Nat,
      (mergeResults s results)[j]? =
        match results.find? (fun pr => pr.1 == j) with
        | some (_, some d) => (s[j]?).map (fun e => setDate e d)
        | _ => s[j]? := by
  induction results with
  | nil => intro s _ j; rfl
  | cons pr rest ih =>
    intro s hkeys j
    obtain ⟨i, v⟩ := pr
    rw [List.pairwise_cons] at hkeys
    obtain ⟨hhead, htail⟩ := hkeys
    by_cases hij : i = j
    · subst hij
      have hrest : ∀ pr ∈ rest, pr.1 ≠ i := by
        intro pr hpr
        exact (hhead pr hpr).symm
      rw [List.find?_cons]
      have hbeq : ((i, v).1 == i) = true := by simp
      rw [hbeq]
      simp only [cond_true]
      cases v with
      | none =>
        rw [mergeResults_cons_none,
          mergeResults_getElem?_not_mem rest _ i hrest]
      | some d =>
        rw [mergeResults_cons_some,
          mergeResults_getElem?_not_mem rest _ i hrest]
        by_cases hlt : i < s.length
        · rw [List.getElem?_set_self hlt]
          have hsome : s[i]? = some (s.getD i dfltEntry) := by
            rw [List.getD_eq_getElem?_getD]
            cases hx : s[i]? with
            | none =>
              exact absurd (List.getElem?_eq_none_iff.mp hx) (by omega)
            | some e => rfl
          rw [hsome]
          rfl
        · have hnone : s[i]? = none :=
            List.getElem?_eq_none (by omega)
          have hnone2 : (s.set i (setDate (s.getD i dfltEntry) d))[i]? = none := by
            apply List.getElem?_eq_none
            rw [List.length_set]
            omega
          rw [hnone2, hnone]
          rfl
    · rw [List.find?_cons]
      have hbeq : ((i, v).1 == j) = false := by
        simp [hij]
      rw [hbeq]
      simp only [cond_false]
      cases v with
      | none =>
        rw [mergeResults_cons_none]
        exact ih s htail j
      | some d =>
        rw [mergeResults_cons_some, ih _ htail j]
        cases hf : rest.find? (fun pr => pr.1 == j) with
        | none => exact List.getElem?_set_ne hij
        | some pr2 =>
          obtain ⟨k, w⟩ := pr2
          cases w with
          | none => exact List.getElem?_set_ne hij
          | some d2 =>
            exact congrArg (Option.map fun e => setDate e d2)
              (List.getElem?_set_ne hij)

theorem find?_eq_some_of_mem_distinct
    {results : List (Nat × Option (List Char))}
    {pr : Nat × Option (List Char)}
    (hkeys : results.Pairwise (fun a b => a.1 ≠ b.1))
    (hmem : pr ∈ results) :
    results.find? (fun x => x.1 == pr.1) = some pr := by
  induction results with
  | nil => simp at hmem
  | cons q rest ih =>
    rw [List.pairwise_cons] at hkeys
    obtain ⟨hhead, htail⟩ := hkeys
    rcases List.mem_cons.mp hmem with rfl | hmem2
    · rw [List.find?_cons]
      simp
    · have hne : q.1 ≠ pr.1 := hhead pr hmem2
      rw [List.find?_cons]
      have : (q.1 == pr.1) = false := by simp [hne]
      rw [this]
      simp only [cond_false]
      exact ih htail hmem2

/-- C6: for every completion order of the per-record date-resolution
tasks, the merge produces the same collection as the canonical order;
the collection keeps its length; every task that resolved a date lands
it at that record's original index; and records without a resolved date
are untouched. -/
theorem positional_integrity (o : DateExt) (s : List EntryRec)
    (results : List (Nat × Option (List Char)))
    (hperm : results.Perm (pendingTasks o 0 s)) :
    mergeResults s results = mergeResults s (pendingTasks o 0 s)
    ∧ (mergeResults s results).length = s.length
    ∧ (∀ j d, (j, some d) ∈ results →
        (mergeResults s results)[j]? = (s[j]?).map (fun e => setDate e d))
    ∧ ∀ j : Nat, (∀ d, (j, some d) ∉ results) →
        (mergeResults s results)[j]? = s[j]? := by
  have hsymm : ∀ {x y : Nat × Option (List Char)},
      x.1 ≠ y.1 → y.1 ≠ x.1 := fun h => h.symm
  have hkeys0 : (pendingTasks o 0 s).Pairwise (fun a b => a.1 ≠ b.1) :=
    pendingTasks_pairwise o s 0
  have hkeys : results.Pairwise (fun a b => a.1 ≠ b.1) :=
    (List.Perm.pairwise_iff hsymm hperm).mpr hkeys0
  have hfind : ∀ j : Nat, results.find? (fun pr => pr.1 == j) =
      (pendingTasks o 0 s).find? (fun pr => pr.1 == j) := by
    intro j
    cases hf : results.find? (fun pr => pr.1 == j) with
    | none =>
      rw [List.find?_eq_none] at hf
      symm
      rw [List.find?_eq_none]
      intro x hx
      exact hf x (hperm.mem_iff.mpr hx)
    | some pr =>
      have hmem : pr ∈ results := List.mem_of_find?_eq_some hf
      have hkey := List.find?_some hf
      have hkey2 : pr.1 = j := by simpa using hkey
      have hmem2 : pr ∈ pendingTasks o 0 s := hperm.mem_iff.mp hmem
      symm
      rw [← hkey2]
      exact find?_eq_some_of_mem_distinct hkeys0 hmem2
  refine ⟨?_, mergeResults_length results s, ?_, ?_⟩
  · apply List.ext_getElem?
    intro j
    rw [mergeResults_pointwise results s hkeys j,
      mergeResults_pointwise (pendingTasks o 0 s) s hkeys0 j, hfind j]
  · intro j d hmem
    rw [mergeResults_pointwise results s hkeys j]
    have := find?_eq_some_of_mem_distinct hkeys hmem
    simp only at this
    rw [this]
  · intro j hnot
    rw [mergeResults_pointwise results s hkeys j]
    cases hf : results.find? (fun pr => pr.1 == j) with
    | none => rfl
    | some pr =>
      obtain ⟨k, w⟩ := pr
      have hkey0 := List.find?_some hf
      have hkey : k = j := by simpa using hkey0
      subst hkey
      cases w with
      | none => rfl
      | some d =>
        exact absurd (List.mem_of_find?_eq_some hf) (hnot d)

def entB : EntryRec := ⟨strL "u", [], [], [], 0, [], none⟩

/-- Witness for C6: merging in reversed completion order equals merging
in task order on a concrete two-record batch. -/
theorem positional_integrity_witness :
    mergeResults [entryW, entB] [(1, none), (0, some (strL "2021-03-09"))] =
      mergeResults [entryW, entB] (pendingTasks dateExtW2 0 [entryW, entB]) := by
  exact (positional_integrity dateExtW2 [entryW, entB]
    [(1, none), (0, some (strL "2021-03-09"))] (by decide)).1

/-- C9: the backfill merge preserves length and positional order, never
changes any field other than `date`, and leaves every record whose date
was already present (truthy) entirely verbatim. -/
theorem backfill_frame (o : DateExt) (s : List EntryRec)
    (results : List (Nat × Option (List Char)))
    (hperm : results.Perm (pendingTasks o 0 s)) :
    (mergeResults s results).length = s.length
    ∧ (∀ j, j < s.length →
        ((mergeResults s results).getD j dfltEntry).url =
          (s.getD j dfltEntry).url
        ∧ ((mergeResults s results).getD j dfltEntry).question =
          (s.getD j dfltEntry).question
        ∧ ((mergeResults s results).getD j dfltEntry).answer =
          (s.getD j dfltEntry).answer
        ∧ ((mergeResults s results).getD j dfltEntry).notes =
          (s.getD j dfltEntry).notes
        ∧ ((mergeResults s results).getD j dfltEntry).interest =
          (s.getD j dfltEntry).interest
        ∧ ((mergeResults s results).getD j dfltEntry).tags =
          (s.getD j dfltEntry).tags)
    ∧ ∀ j, j < s.length → truthyDate (s.getD j dfltEntry).date = true →
        (mergeResults s results).getD j dfltEntry = s.getD j dfltEntry := by
  have hsymm : ∀ {x y : Nat × Option (List Char)},
      x.1 ≠ y.1 → y.1 ≠ x.1 := fun h => h.symm
  have hkeys0 : (pendingTasks o 0 s).Pairwise (fun a b => a.1 ≠ b.1) :=
    pendingTasks_pairwise o s 0
  have hkeys : results.Pairwise (fun a b => a.1 ≠ b.1) :=
    (List.Perm.pairwise_iff hsymm hperm).mpr hkeys0
  have halt : ∀ j, j < s.length →
      (mergeResults s results).getD j dfltEntry = s.getD j dfltEntry ∨
      ∃ d, (mergeResults s results).getD j dfltEntry =
        setDate (s.getD j dfltEntry) d := by
    intro j hj
    rw [List.getD_eq_getElem?_getD, List.getD_eq_getElem?_getD,
      mergeResults_pointwise results s hkeys j]
    cases hf : results.find? (fun pr => pr.1 == j) with
    | none => exact Or.inl rfl
    | some pr =>
      obtain ⟨k, w⟩ := pr
      cases w with
      | none => exact Or.inl rfl
      | some d =>
        refine Or.inr ⟨d, ?_⟩
        have hx : s[j]? = some s[j] := List.getElem?_eq_getElem hj
        rw [hx]
        rfl
  refine ⟨mergeResults_length results s, ?_, ?_⟩
  · intro j hj
    rcases halt j hj with h | ⟨d, h⟩
    · rw [h]
      exact ⟨rfl, rfl, rfl, rfl, rfl, rfl⟩
    · rw [h]
      exact ⟨rfl, rfl, rfl, rfl, rfl, rfl⟩
  · intro j hj htruthy
    have hnokey : ∀ pr ∈ results, pr.1 ≠ j := by
      intro pr hpr hkey
      have hmem : pr ∈ pendingTasks o 0 s := hperm.mem_iff.mp hpr
      obtain ⟨k, hk, hfst, hdate⟩ := pendingTasks_mem o s 0 pr hmem
      have : k = j := by omega
      subst this
      rw [htruthy] at hdate
      cases hdate
    rw [List.getD_eq_getElem?_getD, List.getD_eq_getElem?_getD,
      mergeResults_getElem?_not_mem results s j hnokey]

def entT : EntryRec :=
  ⟨strL "u2", strL "q2", strL "a2", strL "n2", 4, [], some (strL "2020-01-01")⟩

/-- Witness for C9: a record that already carries a date is returned
verbatim by the merge. -/
theorem backfill_frame_witness :
    (mergeResults [entT, entryW]
      [(1, some (strL "2021-03-09"))]).getD 0 dfltEntry = entT := by
  have h := (backfill_frame dateExtW2 [entT, entryW]
    [(1, some (strL "2021-03-09"))] (by decide)).2.2 0 (by decide) (by decide)
  simpa using h

/-! Idempotency of the acquisition flow (C1). -/

theorem enrich_summary_url {o : Ext} {q a notes url : List Char} {s : Summary}
    (h : enrich_summary o q a notes url = some s) : s.url = url := by
  unfold enrich_summary at h
  cases hc : o.claudeEnrich q a notes with
  | none => simp only [hc] at h; exact Option.noConfusion h
  | some resp =>
    simp only [hc] at h
    cases hb : extractBrace resp with
    | none => simp only [hb] at h; exact Option.noConfusion h
    | some span =>
      simp only [hb] at h
      cases hl : o.loadsEnrich span with
      | none => simp only [hl] at h; exact Option.noConfusion h
      | some e =>
        simp only [hl, Option.some.injEq] at h
        rw [← h]

theorem processOne_url {o : Ext} {r : Candidate} {s : Summary}
    (h : processOne o r = some s) : s.url = r.url := by
  unfold processOne at h
  cases hf : o.fetchPLS r.url r.cd_number with
  | none => simp only [hf] at h; exact Option.noConfusion h
  | some pls =>
    simp only [hf] at h
    by_cases hp : pls.isEmpty
    · rw [if_pos hp] at h
      exact absurd h (by simp)
    · rw [if_neg hp] at h
      cases hs : summarize_review o pls with
      | none => simp only [hs] at h; exact Option.noConfusion h
      | some obj =>
        simp only [hs] at h
        exact enrich_summary_url h

theorem dedupByCd_subset :
    ∀ (l : List Candidate) (seen : List (List Char)) (r : Candidate),
      r ∈ dedupByCd l seen → r ∈ l := by
  intro l
  induction l with
  | nil => intro seen r h; simp [dedupByCd] at h
  | cons x rest ih =>
    intro seen r h
    by_cases hx : decide (x.cd_number ∈ seen) = true
    · rw [show dedupByCd (x :: rest) seen = dedupByCd rest seen by
        simp [dedupByCd, hx]] at h
      exact List.mem_cons_of_mem x (ih seen r h)
    · rw [show dedupByCd (x :: rest) seen =
        x :: dedupByCd rest (x.cd_number :: seen) by
        simp [dedupByCd, hx]] at h
      rcases List.mem_cons.mp h with h1 | h2
      · rw [h1]
        exact List.mem_cons_self _ _
      · exact List.mem_cons_of_mem x (ih _ r h2)

theorem normalizeHref_decomp (href : List Char) :
    ∃ p, normalizeHref href = p ++ href := by
  unfold normalizeHref
  split
  · exact ⟨cochraneBase, rfl⟩
  · exact ⟨[], rfl⟩

/-- Every discovered candidate's CD number occurs in its url, with a
non-digit (or the end of the url) right after it. -/
theorem discover_url_decomp (entries : List Entry) (links : List Link) :
    ∀ r ∈ discover entries links, cdShape r.cd_number ∧
      ∃ a b, r.url = a ++ r.cd_number ++ b ∧
        (b = [] ∨ ∃ c bt, b = c :: bt ∧ c.isDigit = false) := by
  intro r hr
  have hcase : r ∈ fetch_rss_reviews entries ∨ r ∈ scrape_news_page links := by
    unfold discover at hr
    by_cases he : (fetch_rss_reviews entries).isEmpty
    · rw [if_pos he] at hr
      exact Or.inr hr
    · rw [if_neg he] at hr
      exact Or.inl hr
  rcases hcase with hr1 | hr2
  · unfold fetch_rss_reviews at hr1
    obtain ⟨e, _, hmap⟩ := List.mem_filterMap.mp hr1
    obtain ⟨cd, hcd, hre⟩ := Option.map_eq_some'.mp hmap
    subst hre
    obtain ⟨hshape, a, b, hdecomp, hb⟩ := searchCD_decomp hcd
    exact ⟨hshape, a, b, hdecomp, hb⟩
  · unfold scrape_news_page at hr2
    have hr3 := dedupByCd_subset _ [] r hr2
    obtain ⟨ln, _, hmap⟩ := List.mem_filterMap.mp hr3
    obtain ⟨cd, hcd, hre⟩ := Option.map_eq_some'.mp hmap
    subst hre
    obtain ⟨hshape, a, b, hdecomp, hb⟩ := searchCD_decomp hcd
    obtain ⟨p, hp⟩ := normalizeHref_decomp ln.href
    refine ⟨hshape, p ++ a, b, ?_, hb⟩
    show normalizeHref ln.href = p ++ a ++ cd ++ b
    rw [hp, hdecomp]
    simp [List.append_assoc]

theorem entryText_decomp (ser : Ser) (s : Summary) :
    ∃ A B, entryText ser s = A ++ s.url ++ '\n' :: B := by
  refine ⟨strL "- question: " ++ ser.dumpsStr s.question ++ strL "\n  answer: "
    ++ ser.dumpsStr s.answer ++ strL "\n  url: ",
    strL "  notes: |\n    " ++ s.notes ++ strL "\n  interest: "
    ++ intStr s.interest ++ strL "\n  tags: " ++ ser.dumpsTags s.tags, ?_⟩
  have h : strL "\n  notes: |\n    " = '\n' :: strL "  notes: |\n    " := rfl
  unfold entryText
  rw [h]
  simp [List.append_assoc]

theorem joinSep_mem_decomp (ser : Ser) :
    ∀ (l : List Summary) (s : Summary), s ∈ l →
      ∃ X Y, joinSep (strL "\n\n") (l.map (entryText ser)) =
        X ++ s.url ++ '\n' :: Y := by
  intro l
  induction l with
  | nil => intro s h; simp at h
  | cons s0 rest ih =>
    intro s hs
    cases rest with
    | nil =>
      have heq : s = s0 := by simpa using hs
      subst heq
      obtain ⟨A, B, hAB⟩ := entryText_decomp ser s
      exact ⟨A, B, by simpa [joinSep] using hAB⟩
    | cons s1 rest2 =>
      have hjoin : joinSep (strL "\n\n") ((s0 :: s1 :: rest2).map (entryText ser)) =
          entryText ser s0 ++ strL "\n\n" ++
            joinSep (strL "\n\n") ((s1 :: rest2).map (entryText ser)) := rfl
      rcases List.mem_cons.mp hs with rfl | hs2
      · obtain ⟨A, B, hAB⟩ := entryText_decomp ser s
        refine ⟨A, B ++ strL "\n\n" ++
          joinSep (strL "\n\n") ((s1 :: rest2).map (entryText ser)), ?_⟩
        rw [hjoin, hAB]
        simp [List.append_assoc]
      · obtain ⟨X, Y, hXY⟩ := ih s hs2
        refine ⟨entryText ser s0 ++ strL "\n\n" ++ X, Y, ?_⟩
        rw [hjoin, hXY]
        simp [List.append_assoc]

theorem appendToSummaries_mem_decomp (ser : Ser) (content : List Char)
    (summaries : List Summary) (s : Summary) (hs : s ∈ summaries) :
    ∃ X Y, appendToSummaries ser content summaries =
      X ++ s.url ++ '\n' :: Y := by
  obtain ⟨X, Y, hXY⟩ := joinSep_mem_decomp ser summaries s hs
  have hne : summaries ≠ [] := by
    intro h
    rw [h] at hs
    simp at hs
  refine ⟨content ++ strL "\n\n# New reviews added by automation\n" ++ X,
    Y ++ ['\n'], ?_⟩
  unfold appendToSummaries
  rw [if_neg (by simp [List.isEmpty_iff, hne]), hXY]
  simp [List.append_assoc]

theorem appendToSummaries_extend (ser : Ser) (content : List Char)
    (summaries : List Summary) (hne : summaries ≠ []) :
    ∃ Z, appendToSummaries ser content summaries = content ++ '\n' :: Z := by
  refine ⟨strL "\n# New reviews added by automation\n" ++
    joinSep (strL "\n\n") (summaries.map (entryText ser)) ++ ['\n'], ?_⟩
  unfold appendToSummaries
  rw [if_neg (by simp [List.isEmpty_iff, hne])]
  have h : strL "\n\n# New reviews added by automation\n" =
      '\n' :: strL "\n# New reviews added by automation\n" := rfl
  rw [h]
  simp [List.append_assoc]

theorem mainRun_discover_empty (ser : Ser) (yv : List Char → Bool) (o : Ext)
    (args : Args) (entries : List Entry) (links : List Link) (c : List Char)
    (h : discover entries links = []) :
    mainRun ser yv o args entries links c = ⟨c, 0, none⟩ := by
  simp only [mainRun]
  rw [if_pos (List.isEmpty_iff.mpr h)]

theorem mainRun_no_new (ser : Ser) (yv : List Char → Bool) (o : Ext)
    (args : Args) (entries : List Entry) (links : List Link) (c : List Char)
    (h : newCandidates entries links c = []) (hd : discover entries links ≠ []) :
    mainRun ser yv o args entries links c = ⟨c, 0, none⟩ := by
  simp only [mainRun]
  rw [if_neg (by rw [List.isEmpty_iff]; exact hd),
    if_pos (List.isEmpty_iff.mpr h)]

theorem mainRun_content_eq (ser : Ser) (yv : List Char → Bool) (o : Ext)
    (mr : Nat) (entries : List Entry) (links : List Link) (c : List Char)
    (hd : discover entries links ≠ [])
    (hn : newCandidates entries links c ≠ [])
    (hp : processedSummaries o entries links c mr ≠ []) :
    (mainRun ser yv o ⟨false, mr⟩ entries links c).content =
      appendToSummaries ser c (processedSummaries o entries links c mr) := by
  simp only [mainRun]
  rw [if_neg (by rw [List.isEmpty_iff]; exact hd),
    if_neg (by rw [List.isEmpty_iff]; exact hn),
    if_neg (by simp),
    if_neg (by rw [List.isEmpty_iff]; exact hp)]
  split <;> rfl

/-- C1: once a run has appended records for every filtered candidate
(all succeed, cap not exceeded), a second run over the same feed/page
finds every candidate's CD number in the store text — each via the
written url line or because it was already present — filters them all,
and ends without changing the store or emitting output. -/
theorem acquisition_idempotent (ser : Ser) (yv yv2 : List Char → Bool)
    (o o2 : Ext) (mr : Nat) (args2 : Args) (entries : List Entry)
    (links : List Link) (content : List Char)
    (hall : ∀ r ∈ newCandidates entries links content, processOne o r ≠ none)
    (hcap : (newCandidates entries links content).length ≤ mr) :
    mainRun ser yv2 o2 args2 entries links
        (mainRun ser yv o ⟨false, mr⟩ entries links content).content =
      ⟨(mainRun ser yv o ⟨false, mr⟩ entries links content).content,
        0, none⟩ := by
  by_cases hd : discover entries links = []
  · rw [mainRun_discover_empty ser yv o ⟨false, mr⟩ entries links content hd]
    exact mainRun_discover_empty ser yv2 o2 args2 entries links content hd
  · by_cases hn : newCandidates entries links content = []
    · rw [mainRun_no_new ser yv o ⟨false, mr⟩ entries links content hn hd]
      exact mainRun_no_new ser yv2 o2 args2 entries links content hn hd
    · have htake : (newCandidates entries links content).take mr =
          newCandidates entries links content := List.take_of_length_le hcap
      have hproc : processedSummaries o entries links content mr =
          (newCandidates entries links content).filterMap (processOne o) := by
        unfold processedSummaries
        rw [htake]
      have hpne : processedSummaries o entries links content mr ≠ [] := by
        rw [hproc]
        obtain ⟨r0, hr0⟩ : ∃ r0, r0 ∈ newCandidates entries links content := by
          cases hx : newCandidates entries links content with
          | nil => exact absurd hx hn
          | cons a t => exact ⟨a, by simp [hx]⟩
        cases hs0 : processOne o r0 with
        | none => exact absurd hs0 (hall r0 hr0)
        | some s0 =>
          intro hmt
          have hmem0 : s0 ∈ (newCandidates entries links content).filterMap
              (processOne o) := List.mem_filterMap.mpr ⟨r0, hr0, hs0⟩
          rw [hmt] at hmem0
          simp at hmem0
      have hc1 : (mainRun ser yv o ⟨false, mr⟩ entries links content).content =
          appendToSummaries ser content
            (processedSummaries o entries links content mr) :=
        mainRun_content_eq ser yv o mr entries links content hd hn hpne
      have hkey : ∀ r ∈ discover entries links,
          r.cd_number ∈ findAllCD
            ((mainRun ser yv o ⟨false, mr⟩ entries links content).content) := by
        intro r hr
        rw [hc1]
        obtain ⟨⟨ds, hmshape, hdsne, hdig⟩, a, b, hurl, hb⟩ :=
          discover_url_decomp entries links r hr
        by_cases hmem : r.cd_number ∈ findAllCD content
        · obtain ⟨Z, hZ⟩ := appendToSummaries_extend ser content
            (processedSummaries o entries links content mr) hpne
          rw [hZ]
          exact findAllCD_mem_append Z (by decide) hmem
        · have hrN : r ∈ newCandidates entries links content := by
            unfold newCandidates
            rw [List.mem_filter]
            exact ⟨hr, by simp [hmem]⟩
          cases hs : processOne o r with
          | none => exact absurd hs (hall r hrN)
          | some s =>
            have hsmem : s ∈ processedSummaries o entries links content mr := by
              rw [hproc]
              exact List.mem_filterMap.mpr ⟨r, hrN, hs⟩
            have hsurl : s.url = r.url := processOne_url hs
            obtain ⟨X, Y, hXY⟩ := appendToSummaries_mem_decomp ser content
              (processedSummaries o entries links content mr) s hsmem
            rw [hXY, hsurl, hurl]
            rcases hb with rfl | ⟨c, bt, rfl, hcdig⟩
            · have heq : X ++ (a ++ r.cd_number ++ []) ++ '\n' :: Y =
                  (X ++ a) ++ r.cd_number ++ '\n' :: Y := by simp
              rw [heq, hmshape]
              exact cd_mem_of_decomp hdsne hdig (X ++ a).length (X ++ a)
                (le_refl _) Y '\n' (by decide)
            · have heq : X ++ (a ++ r.cd_number ++ c :: bt) ++ '\n' :: Y =
                  (X ++ a) ++ r.cd_number ++ c :: (bt ++ '\n' :: Y) := by simp
              rw [heq, hmshape]
              exact cd_mem_of_decomp hdsne hdig (X ++ a).length (X ++ a)
                (le_refl _) _ c hcdig
      have hn2 : newCandidates entries links
          ((mainRun ser yv o ⟨false, mr⟩ entries links content).content) = [] := by
        unfold newCandidates
        rw [List.filter_eq_nil_iff]
        intro r hr
        simp [hkey r hr]
      exact mainRun_no_new ser yv2 o2 args2 entries links _ hn2 hd

/-- Witness for C1: the concrete one-candidate run is idempotent. -/
theorem acquisition_idempotent_witness :
    mainRun serW (fun _ => true) extRunW ⟨false, 5⟩ entriesW []
        ((mainRun serW (fun _ => true) extRunW ⟨false, 5⟩ entriesW []
          []).content) =
      ⟨(mainRun serW (fun _ => true) extRunW ⟨false, 5⟩ entriesW []
          []).content, 0, none⟩ := by
  apply acquisition_idempotent serW (fun _ => true) (fun _ => true) extRunW
    extRunW 5 ⟨false, 5⟩ entriesW [] []
  · rw [newCandidates_witness_eval]
    intro r hr
    rw [List.mem_singleton] at hr
    subst hr
    rw [processOne_witness_eval]
    simp
  · rw [newCandidates_witness_eval]
    simp

end Cochrane

